import Mathlib

/-!
Shallow embedding of `src/ndnsim/ns-3/src/internet/model/codel-queue2.cc`
(class `ns3::CoDelQueue2`, a CoDel variant with a probability / congestion
window extension), together with theorems settling the specification
claims about it.

Modelling conventions:
* Machine integers (`uint32_t` / `uint64_t` counters, sizes and coarse
  timestamps) are modelled as `ℕ`.  Their declared widths live in the
  header `codel-queue2.h`, which is not among the sources; following the
  spec's data model (§3, §6: `uint` fields, `bytesInQueue ≥ 0` equal to a
  sum of sizes) they are treated as unbounded naturals.
* `double` quantities (`probability`, `sojournTime_before`, `Cwnd`, and
  the seconds values obtained from `Time::GetSeconds()`) are modelled as
  exact rationals `ℚ`; IEEE rounding is idealised away.
* ns-3 `Time` values are carried as nanosecond counts (`ℕ`), matching
  `Time::GetNanoSeconds()`; `Time2CoDel` right-shifts them into the
  coarse CoDel unit.
* The simulator clock appears as an explicit `nowNs` argument to the
  operations that read `Simulator::Now()`.
-/

namespace CoDelQueue2

/-- `CODEL2_SHIFT`: the fixed right-shift from nanoseconds to the coarse
CoDel time unit.  The constant is defined in the header `codel-queue2.h`
(not among the sources); the value 10 of the reference CoDel
implementation is used.  No claim depends on its value. -/
def codel2Shift : ℕ := 10

/-- A queued packet: its size in bytes (`Packet::GetSize()`) and the
creation timestamp carried by its `CoDelTimestampTag` (nanoseconds).
Modelled from the spec: the tag bodies are outside the sources; per §3
the tag is an opaque creation-timestamp attached at enqueue, so the
stamp is stored directly with the packet. -/
structure Packet where
  size : ℕ
  stamp : ℕ
deriving Repr, DecidableEq

/-- `CoDelQueue2::QueueMode`: byte-count or packet-count limit mode. -/
inductive QueueMode where
  | bytes
  | packets
deriving Repr, DecidableEq

/-- The configuration attributes of `CoDelQueue2` (`Mode`, `MaxPackets`,
`MaxBytes`, `Interval`, `Target`); per spec §6 they are supplied once
and immutable thereafter.  `target` and `interval` are in nanoseconds. -/
structure Config where
  mode : QueueMode
  maxPackets : ℕ
  maxBytes : ℕ
  targetNs : ℕ
  intervalNs : ℕ
deriving Repr, DecidableEq

/-- The mutable state of a `CoDelQueue2` instance: the FIFO packet queue
(`m_packets`, head first) and the controller-state fields initialised in
the constructor.  The dead fixed-point fields `m_recInvSqrt`,
`m_state1..3`, `m_dropCount`, `m_lastCount` (never read or written by
the algorithm in the source) are omitted.  `Cwnd` is a static member in
the source; it is carried per state here. -/
structure CState where
  packets : List Packet
  bytesInQueue : ℕ
  markedCount : ℕ
  firstAboveTime : ℕ
  nextMarkingTime : ℕ
  states : ℕ
  dropOverLimit : ℕ
  nTotalDroppedPackets : ℕ
  nTotalDroppedBytes : ℕ
  sojourn : ℕ
  sojournTime_before : ℚ
  probability : ℚ
  Cwnd : ℚ
  overTargetForInterval : Bool
  markNext : Bool
deriving Repr, DecidableEq

/-- The state established by the `CoDelQueue2` constructor (and the
static initialiser `Cwnd = 0.0`). -/
def initState : CState :=
  { packets := []
    bytesInQueue := 0
    markedCount := 0
    firstAboveTime := 0
    nextMarkingTime := 0
    states := 0
    dropOverLimit := 0
    nTotalDroppedPackets := 0
    nTotalDroppedBytes := 0
    sojourn := 0
    sojournTime_before := 0
    probability := 0
    Cwnd := 0
    overTargetForInterval := false
    markNext := false }

/-- `Time2CoDel`: a nanosecond duration right-shifted into the coarse
CoDel unit. -/
def time2CoDel (tNs : ℕ) : ℕ := tNs >>> codel2Shift

/-- `CoDelGetTime`: the current simulator time in the coarse unit. -/
def coDelGetTime (nowNs : ℕ) : ℕ := nowNs >>> codel2Shift

/-- `Time::GetSeconds()` on a nanosecond count, as an exact rational. -/
def getSeconds (tNs : ℕ) : ℚ := (tNs : ℚ) / 1000000000

/-- Reinterpretation of a `uint64_t` bit pattern as an `int64_t`, used
by the wrap-safe time comparisons. -/
def int64OfUInt64 (a : ℕ) : ℤ :=
  if a % 2 ^ 64 < 2 ^ 63 then ((a % 2 ^ 64 : ℕ) : ℤ)
  else ((a % 2 ^ 64 : ℕ) : ℤ) - 2 ^ 64

/-- `CoDelTimeAfter(a, b) = ((int64_t) a - (int64_t) b > 0)`. -/
def coDelTimeAfter (a b : ℕ) : Bool :=
  decide (0 < int64OfUInt64 a - int64OfUInt64 b)

/-- `CoDelTimeAfterEq(a, b) = ((int64_t) a - (int64_t) b >= 0)`. -/
def coDelTimeAfterEq (a b : ℕ) : Bool :=
  decide (0 ≤ int64OfUInt64 a - int64OfUInt64 b)

/-- The marking-interval shrink of `getNextMarkingTime`: the truncation
to `uint64_t` of `c * (1.1 / sqrt k)` computed in `double`, where `c` is
the coarse interval and `k = m_markedCount`.  Idealising the doubles as
reals, `⌊c * 1.1 / √k⌋ = ⌊√(121 c² / (100 k))⌋ = Nat.sqrt (121c²/(100k))`
(the equality with the real floor is proved in
`markingDelay_eq_floor`). -/
def markingDelay (c k : ℕ) : ℕ :=
  Nat.sqrt (121 * (c * c) / (100 * k))

/-- `CoDelQueue2::getNextMarkingTime(t)`: `t` plus the shrunk interval
`Time2CoDel(m_interval) * (1.1 / sqrt(m_markedCount))`. -/
def getNextMarkingTime (cfg : Config) (markedCount t : ℕ) : ℕ :=
  t + markingDelay (time2CoDel cfg.intervalNs) markedCount

/-- `Queue::Drop` of the ns-3 base class, called at the end of
`CoDelQueue2::Drop`.  Modelled from the spec: the base class is not
among the sources; per §1/§9 it is trace/metrics publication only, with
no effect on the controller state. -/
def queueDropBase (s : CState) (_p : Packet) : CState := s

/-- `CoDelQueue2::Drop(p)`: increments the aggregate drop counters and
forwards to the base-class drop (trace publication). -/
def drop (s : CState) (p : Packet) : CState :=
  queueDropBase
    { s with
      nTotalDroppedPackets := s.nTotalDroppedPackets + 1
      nTotalDroppedBytes := s.nTotalDroppedBytes + p.size } p

/-- `CoDelQueue2::DoEnqueue(p)`: reject when the active mode's limit
would be exceeded (drop the packet and count it against
`m_dropOverLimit`), otherwise tag the packet with the current time,
account its bytes and append it to the FIFO.  Returns the admission
result together with the successor state. -/
def doEnqueue (cfg : Config) (s : CState) (size nowNs : ℕ) : Bool × CState :=
  if cfg.mode = QueueMode.packets ∧ cfg.maxPackets < s.packets.length + 1 then
    (false, { drop s ⟨size, nowNs⟩ with dropOverLimit := s.dropOverLimit + 1 })
  else if cfg.mode = QueueMode.bytes ∧ cfg.maxBytes < s.bytesInQueue + size then
    (false, { drop s ⟨size, nowNs⟩ with dropOverLimit := s.dropOverLimit + 1 })
  else
    (true,
      { s with
        bytesInQueue := s.bytesInQueue + size
        packets := s.packets ++ [⟨size, nowNs⟩] })

/-- The two sequential clamping statements
`if (probability <= 0) probability = 0; if (probability >= 1) probability = 1;`
as one function (when the first fires, the result 0 never reaches 1, so
the sequential form collapses to this nested conditional). -/
def clampProbability (q : ℚ) : ℚ :=
  if q ≤ 0 then 0 else if 1 ≤ q then 1 else q

/-- `CoDelQueue2::checkSojournTime(p, now)`: the sojourn-tracker state
machine, evaluated against the packet's measured delay
`deltaNs = Simulator::Now() - tag.GetTxTime()` and the coarse time
`now`.  Each branch applies the net field updates of the corresponding
source path (the source first clears `m_overTargetForInterval` and then
possibly re-sets it).  Returns `m_overTargetForInterval` together with
the successor state. -/
def checkSojournTime (cfg : Config) (s : CState) (deltaNs now : ℕ) : Bool × CState :=
  if coDelTimeAfter (time2CoDel deltaNs) (time2CoDel cfg.targetNs) then
    if s.firstAboveTime = 0 then
      (false, { s with overTargetForInterval := false, firstAboveTime := now })
    else if coDelTimeAfter now (s.firstAboveTime + time2CoDel cfg.intervalNs) then
      (let d := getSeconds deltaNs
       let p3 := clampProbability (s.probability + (1 / 8) * (d - getSeconds cfg.targetNs)
                   + (5 / 4) * (d - s.sojournTime_before))
       (true,
         { s with
           overTargetForInterval := true
           sojourn := deltaNs
           probability := p3
           Cwnd := ((1 / 8) * (getSeconds cfg.targetNs - d) - p3) / ((11 / 8) * d)
           sojournTime_before := d }))
    else
      (false, { s with overTargetForInterval := false })
  else
    (false, { s with firstAboveTime := 0, overTargetForInterval := false })

/-- `CoDelQueue2::DoDequeue()`: on an empty queue, reset the tracker and
return the empty signal; otherwise pop the head, account its bytes, run
the sojourn tracker, and run the marking scheduler on its verdict. -/
def doDequeue (cfg : Config) (s : CState) (nowNs : ℕ) : Option Packet × CState :=
  match s.packets with
  | [] => (none, { s with overTargetForInterval := false, firstAboveTime := 0 })
  | p :: rest =>
    let now := coDelGetTime nowNs
    let s1 := { s with packets := rest, bytesInQueue := s.bytesInQueue - p.size }
    let r := checkSojournTime cfg s1 (nowNs - p.stamp) now
    let s2 := r.2
    let s3 :=
      if r.1 then
        if coDelTimeAfterEq now s2.nextMarkingTime then
          { s2 with
            markedCount := s2.markedCount + 1
            markNext := true
            nextMarkingTime := getNextMarkingTime cfg (s2.markedCount + 1) now }
        else s2
      else { s2 with markedCount := 0 }
    (some p, { s3 with states := s3.states + 1 })

/-- `CoDelQueue2::GetQueueSize()`: bytes in byte mode, packet count in
packet mode. -/
def getQueueSize (cfg : Config) (s : CState) : ℕ :=
  match cfg.mode with
  | QueueMode.bytes => s.bytesInQueue
  | QueueMode.packets => s.packets.length

/-- `CoDelQueue2::DoPeek()`: the head packet (or the empty signal)
without removal; the method is `const` and is returned together with
the (unchanged) state. -/
def doPeek (s : CState) : Option Packet × CState :=
  match s.packets with
  | [] => (none, s)
  | p :: _ => (some p, s)

/-- `CoDelQueue2::isOkToMark()`: if `m_markNext` is set, clear it and
return `m_overTargetForInterval` (printing a diagnostic when the latter
has fallen back to false); otherwise return false. -/
def isOkToMark (s : CState) : Bool × CState :=
  if s.markNext then (s.overTargetForInterval, { s with markNext := false })
  else (false, s)

/-- `CoDelQueue2::traceOkToDrop()`: the current confirmed-over-target
state. -/
def traceOkToDrop (s : CState) : Bool := s.overTargetForInterval

/-- `CoDelQueue2::isQueueOverLimit(limit)`: true when either the byte
occupancy exceeds `m_maxBytes * limit` or the packet count exceeds
`m_maxPackets * limit`, in either mode.  The `double` fraction is an
exact rational. -/
def isQueueOverLimit (cfg : Config) (s : CState) (limit : ℚ) : Bool :=
  if (cfg.maxBytes : ℚ) * limit < (s.bytesInQueue : ℚ)
      ∨ (cfg.maxPackets : ℚ) * limit < (s.packets.length : ℚ) then true
  else false

/-- A driver operation: an enqueue of a packet of a given size, or a
dequeue, each at a given simulator time (nanoseconds). -/
inductive Op where
  | enq (size nowNs : ℕ)
  | deq (nowNs : ℕ)
deriving Repr, DecidableEq

/-- One driver step: apply an operation to the state. -/
def step (cfg : Config) (s : CState) : Op → CState
  | Op.enq size nowNs => (doEnqueue cfg s size nowNs).2
  | Op.deq nowNs => (doDequeue cfg s nowNs).2

/-- Run a sequence of operations from the constructor state. -/
def run (cfg : Config) (ops : List Op) : CState :=
  ops.foldl (step cfg) initState

/-! ### Supporting lemmas -/

theorem clampProbability_nonneg (q : ℚ) : 0 ≤ clampProbability q := by
  unfold clampProbability
  split_ifs with h1 h2 <;> linarith

theorem clampProbability_le_one (q : ℚ) : clampProbability q ≤ 1 := by
  unfold clampProbability
  split_ifs with h1 h2 <;> linarith

theorem clampProbability_eq_min_max (q : ℚ) : clampProbability q = min 1 (max 0 q) := by
  unfold clampProbability
  split_ifs with h1 h2
  · rw [max_eq_left h1, min_eq_right (by norm_num)]
  · rw [max_eq_right (le_of_not_le h1), min_eq_left h2]
  · rw [max_eq_right (le_of_not_le h1), min_eq_right (le_of_not_le h2)]

theorem checkSojournTime_frame (cfg : Config) (s : CState) (deltaNs now : ℕ) :
    (checkSojournTime cfg s deltaNs now).2.packets = s.packets
      ∧ (checkSojournTime cfg s deltaNs now).2.bytesInQueue = s.bytesInQueue
      ∧ (checkSojournTime cfg s deltaNs now).2.markedCount = s.markedCount
      ∧ (checkSojournTime cfg s deltaNs now).2.nextMarkingTime = s.nextMarkingTime
      ∧ (checkSojournTime cfg s deltaNs now).2.states = s.states
      ∧ (checkSojournTime cfg s deltaNs now).2.markNext = s.markNext
      ∧ (checkSojournTime cfg s deltaNs now).2.dropOverLimit = s.dropOverLimit
      ∧ (checkSojournTime cfg s deltaNs now).2.nTotalDroppedPackets = s.nTotalDroppedPackets
      ∧ (checkSojournTime cfg s deltaNs now).2.nTotalDroppedBytes = s.nTotalDroppedBytes := by
  unfold checkSojournTime
  split_ifs <;> exact ⟨rfl, rfl, rfl, rfl, rfl, rfl, rfl, rfl, rfl⟩

theorem checkSojournTime_probability (cfg : Config) (s : CState) (deltaNs now : ℕ) :
    (checkSojournTime cfg s deltaNs now).2.probability = s.probability
      ∨ (0 ≤ (checkSojournTime cfg s deltaNs now).2.probability
          ∧ (checkSojournTime cfg s deltaNs now).2.probability ≤ 1) := by
  unfold checkSojournTime
  split_ifs
  · exact Or.inl rfl
  · exact Or.inr ⟨clampProbability_nonneg _, clampProbability_le_one _⟩
  · exact Or.inl rfl
  · exact Or.inl rfl

theorem doDequeue_cons_shape (cfg : Config) (s : CState) (nowNs : ℕ) (p : Packet)
    (rest : List Packet) (h : s.packets = p :: rest) :
    (doDequeue cfg s nowNs).1 = some p
      ∧ (doDequeue cfg s nowNs).2.packets = rest
      ∧ (doDequeue cfg s nowNs).2.bytesInQueue = s.bytesInQueue - p.size
      ∧ ((doDequeue cfg s nowNs).2.probability =
          (checkSojournTime cfg
            { s with packets := rest, bytesInQueue := s.bytesInQueue - p.size }
            (nowNs - p.stamp) (coDelGetTime nowNs)).2.probability) := by
  unfold doDequeue
  rw [h]
  simp only
  have hf := checkSojournTime_frame cfg
    { s with packets := rest, bytesInQueue := s.bytesInQueue - p.size }
    (nowNs - p.stamp) (coDelGetTime nowNs)
  rcases hf with ⟨hp, hb, -⟩
  cases hr : (checkSojournTime cfg
      { s with packets := rest, bytesInQueue := s.bytesInQueue - p.size }
      (nowNs - p.stamp) (coDelGetTime nowNs)).1 <;>
    [skip; split_ifs] <;>
    refine ⟨?_, ?_, ?_, ?_⟩ <;>
    simp [hr, hp, hb]

theorem doEnqueue_accept_or_reject (cfg : Config) (s : CState) (size nowNs : ℕ) :
    (doEnqueue cfg s size nowNs).2 =
        { s with
          dropOverLimit := s.dropOverLimit + 1
          nTotalDroppedPackets := s.nTotalDroppedPackets + 1
          nTotalDroppedBytes := s.nTotalDroppedBytes + size }
      ∨ (doEnqueue cfg s size nowNs).2 =
        { s with
          bytesInQueue := s.bytesInQueue + size
          packets := s.packets ++ [⟨size, nowNs⟩] } := by
  unfold doEnqueue drop queueDropBase
  split_ifs <;> simp

theorem natFloor_sqrt_div (m d : ℕ) (hd : 0 < d) :
    ⌊Real.sqrt ((m : ℝ) / (d : ℝ))⌋₊ = Nat.sqrt (m / d) := by
  have hdR : (0 : ℝ) < (d : ℝ) := by exact_mod_cast hd
  have hx : (0 : ℝ) ≤ (m : ℝ) / (d : ℝ) := by positivity
  apply le_antisymm
  · rw [Nat.le_sqrt, Nat.le_div_iff_mul_le hd]
    have h1 : ((⌊Real.sqrt ((m : ℝ) / (d : ℝ))⌋₊ : ℝ)) ≤ Real.sqrt ((m : ℝ) / (d : ℝ)) :=
      Nat.floor_le (Real.sqrt_nonneg _)
    have h2 : ((⌊Real.sqrt ((m : ℝ) / (d : ℝ))⌋₊ : ℝ)) ^ 2 ≤ (m : ℝ) / (d : ℝ) := by
      have h' := pow_le_pow_left₀ (by positivity) h1 2
      rwa [Real.sq_sqrt hx] at h'
    have h3 := (le_div_iff₀ hdR).mp h2
    rw [sq] at h3
    exact_mod_cast h3
  · apply Nat.le_floor
    rw [Real.le_sqrt (by positivity) hx]
    have h4 : Nat.sqrt (m / d) * Nat.sqrt (m / d) * d ≤ m :=
      (Nat.le_div_iff_mul_le hd).mp (Nat.sqrt_le _)
    rw [le_div_iff₀ hdR, sq]
    exact_mod_cast h4

theorem markingDelay_eq_floor (c k : ℕ) (hk : 0 < k) :
    markingDelay c k = ⌊(c : ℝ) * (11 / 10) / Real.sqrt k⌋₊ := by
  have hkR : (0 : ℝ) < (k : ℝ) := by exact_mod_cast hk
  have hs : (0 : ℝ) < Real.sqrt k := Real.sqrt_pos.mpr hkR
  have hsq : Real.sqrt (((121 * (c * c) : ℕ) : ℝ) / ((100 * k : ℕ) : ℝ))
      = (c : ℝ) * (11 / 10) / Real.sqrt k := by
    have h1 : ((121 * (c * c) : ℕ) : ℝ) = (11 * c) ^ 2 := by push_cast; ring
    have h2 : ((100 * k : ℕ) : ℝ) = 10 ^ 2 * (k : ℝ) := by push_cast; ring
    rw [h1, h2, Real.sqrt_div (by positivity), Real.sqrt_sq (by positivity),
      Real.sqrt_mul (by norm_num), Real.sqrt_sq (by norm_num)]
    field_simp
    ring
  unfold markingDelay
  rw [← hsq, natFloor_sqrt_div _ _ (by positivity)]

/-- The limit of the active queue mode. -/
def modeLimit (cfg : Config) : ℕ :=
  match cfg.mode with
  | QueueMode.bytes => cfg.maxBytes
  | QueueMode.packets => cfg.maxPackets

theorem step_probability (cfg : Config) (s : CState) (op : Op) :
    (step cfg s op).probability = s.probability
      ∨ (0 ≤ (step cfg s op).probability ∧ (step cfg s op).probability ≤ 1) := by
  cases op with
  | enq size nowNs =>
    left
    rcases doEnqueue_accept_or_reject cfg s size nowNs with h | h <;>
      simp only [step] <;> rw [h]
  | deq nowNs =>
    rcases hq : s.packets with - | ⟨p, rest⟩
    · left
      simp [step, doDequeue, hq]
    · obtain ⟨-, -, -, hpr⟩ := doDequeue_cons_shape cfg s nowNs p rest hq
      have hd := checkSojournTime_probability cfg
        { s with packets := rest, bytesInQueue := s.bytesInQueue - p.size }
        (nowNs - p.stamp) (coDelGetTime nowNs)
      simp only [step]
      rw [hpr]
      exact hd

theorem run_probability_unit (cfg : Config) (ops : List Op) :
    0 ≤ (run cfg ops).probability ∧ (run cfg ops).probability ≤ 1 := by
  suffices H : ∀ (l : List Op) (s : CState),
      0 ≤ s.probability → s.probability ≤ 1 →
        0 ≤ (l.foldl (step cfg) s).probability ∧ (l.foldl (step cfg) s).probability ≤ 1 by
    exact H ops initState le_rfl (by norm_num [initState])
  intro l
  induction l with
  | nil => exact fun s h0 h1 => ⟨h0, h1⟩
  | cons op l ih =>
    intro s h0 h1
    rcases step_probability cfg s op with h | h
    · exact ih _ (h ▸ h0) (h ▸ h1)
    · exact ih _ h.1 h.2

theorem step_bytes_sum (cfg : Config) (s : CState) (op : Op)
    (h : s.bytesInQueue = (s.packets.map Packet.size).sum) :
    (step cfg s op).bytesInQueue = ((step cfg s op).packets.map Packet.size).sum := by
  cases op with
  | enq size nowNs =>
    rcases doEnqueue_accept_or_reject cfg s size nowNs with h' | h' <;>
      simp only [step] <;> rw [h'] <;> simp [h]
  | deq nowNs =>
    rcases hq : s.packets with - | ⟨p, rest⟩
    · simpa [step, doDequeue, hq] using h
    · obtain ⟨-, hp, hb, -⟩ := doDequeue_cons_shape cfg s nowNs p rest hq
      simp only [step]
      rw [hp, hb, h, hq]
      simp

theorem run_bytes_sum (cfg : Config) (ops : List Op) :
    (run cfg ops).bytesInQueue = ((run cfg ops).packets.map Packet.size).sum := by
  suffices H : ∀ (l : List Op) (s : CState),
      s.bytesInQueue = (s.packets.map Packet.size).sum →
        (l.foldl (step cfg) s).bytesInQueue
          = ((l.foldl (step cfg) s).packets.map Packet.size).sum by
    exact H ops initState rfl
  intro l
  induction l with
  | nil => exact fun s h => h
  | cons op l ih => exact fun s h => ih _ (step_bytes_sum cfg s op h)

theorem step_queueSize_le (cfg : Config) (s : CState) (op : Op)
    (h : getQueueSize cfg s ≤ modeLimit cfg) :
    getQueueSize cfg (step cfg s op) ≤ modeLimit cfg := by
  cases op with
  | enq size nowNs =>
    simp only [step]
    unfold doEnqueue drop queueDropBase
    split_ifs with h1 h2
    · cases hm : cfg.mode <;> simpa [getQueueSize, modeLimit, hm] using h
    · cases hm : cfg.mode <;> simpa [getQueueSize, modeLimit, hm] using h
    · cases hm : cfg.mode
      · have hbs : ¬ cfg.maxBytes < s.bytesInQueue + size := fun hlt => h2 ⟨hm, hlt⟩
        simp only [getQueueSize, modeLimit, hm]
        omega
      · have hps : ¬ cfg.maxPackets < s.packets.length + 1 := fun hlt => h1 ⟨hm, hlt⟩
        simp only [getQueueSize, modeLimit, hm, List.length_append, List.length_cons,
          List.length_nil]
        omega
  | deq nowNs =>
    rcases hq : s.packets with - | ⟨p, rest⟩
    · cases hm : cfg.mode
      · simp only [step, doDequeue, hq, getQueueSize, modeLimit, hm] at h ⊢
        exact h
      · simp only [step, doDequeue, hq, getQueueSize, modeLimit, hm, List.length_nil] at h ⊢
        exact h
    · obtain ⟨-, hp, hb, -⟩ := doDequeue_cons_shape cfg s nowNs p rest hq
      cases hm : cfg.mode
      · simp only [step, getQueueSize, modeLimit, hm] at h ⊢
        rw [hb]
        omega
      · simp only [step, getQueueSize, modeLimit, hm] at h ⊢
        rw [hp, hq] at *
        simp only [List.length_cons] at h
        omega

theorem run_queueSize_le (cfg : Config) (ops : List Op) :
    getQueueSize cfg (run cfg ops) ≤ modeLimit cfg := by
  suffices H : ∀ (l : List Op) (s : CState),
      getQueueSize cfg s ≤ modeLimit cfg →
        getQueueSize cfg (l.foldl (step cfg) s) ≤ modeLimit cfg by
    refine H ops initState ?_
    cases hm : cfg.mode <;> simp [getQueueSize, modeLimit, hm, initState]
  intro l
  induction l with
  | nil => exact fun s h => h
  | cons op l ih => exact fun s h => ih _ (step_queueSize_le cfg s op h)

theorem checkSojournTime_confirm_eq (cfg : Config) (s : CState) (deltaNs now : ℕ)
    (h1 : coDelTimeAfter (time2CoDel deltaNs) (time2CoDel cfg.targetNs) = true)
    (h2 : s.firstAboveTime ≠ 0)
    (h3 : coDelTimeAfter now (s.firstAboveTime + time2CoDel cfg.intervalNs) = true) :
    checkSojournTime cfg s deltaNs now =
      (true,
        { s with
          overTargetForInterval := true
          sojourn := deltaNs
          probability := clampProbability (s.probability
            + (1 / 8) * (getSeconds deltaNs - getSeconds cfg.targetNs)
            + (5 / 4) * (getSeconds deltaNs - s.sojournTime_before))
          Cwnd := ((1 / 8) * (getSeconds cfg.targetNs - getSeconds deltaNs)
              - clampProbability (s.probability
                + (1 / 8) * (getSeconds deltaNs - getSeconds cfg.targetNs)
                + (5 / 4) * (getSeconds deltaNs - s.sojournTime_before)))
            / ((11 / 8) * getSeconds deltaNs)
          sojournTime_before := getSeconds deltaNs }) := by
  unfold checkSojournTime
  rw [if_pos h1, if_neg h2, if_pos h3]

theorem checkSojournTime_pending_eq (cfg : Config) (s : CState) (deltaNs now : ℕ)
    (h1 : coDelTimeAfter (time2CoDel deltaNs) (time2CoDel cfg.targetNs) = true)
    (h2 : s.firstAboveTime ≠ 0)
    (h3 : coDelTimeAfter now (s.firstAboveTime + time2CoDel cfg.intervalNs) = false) :
    checkSojournTime cfg s deltaNs now =
      (false, { s with overTargetForInterval := false }) := by
  unfold checkSojournTime
  rw [if_pos h1, if_neg h2, if_neg (by rw [h3]; exact Bool.false_ne_true)]

/-! ### Concrete fixtures used by witnesses and counterexamples -/

/-- A concrete configuration: packet mode, `maxPackets = 100`,
`maxBytes = 150000`, target 5120 ns (5 coarse units), interval
102400 ns (100 coarse units). -/
def cfgW : Config :=
  { mode := QueueMode.packets, maxPackets := 100, maxBytes := 150000,
    targetNs := 5120, intervalNs := 102400 }

/-- A state whose sojourn tracker is already above target
(`firstAboveTime = 10`). -/
def sFat : CState := { initState with firstAboveTime := 10 }

/-- A state holding one stamped packet, above target since coarse time 2. -/
def sMarkW : CState :=
  { initState with packets := [⟨100, 0⟩], bytesInQueue := 100, firstAboveTime := 2 }

/-! ### Claims -/

/-- C1 (counterexample): in the state whose `markNext` flag is set but
whose confirmed-over-target condition has cleared, `isOkToMark()` does
not return the value of the flag: the flag reads `true`, the call
returns `false`. -/
theorem isOkToMark_flag_counterexample :
    ({ initState with markNext := true } : CState).markNext = true
      ∧ (isOkToMark { initState with markNext := true }).1 = false :=
  ⟨rfl, rfl⟩

/-- C1 (amended): `isOkToMark()` clears the single-shot `markNext` flag
and returns the conjunction of the flag with the current
confirmed-over-target condition; in particular, without a preceding
scheduler firing it returns false, and after a firing it returns true
only when `m_overTargetForInterval` still holds. -/
theorem isOkToMark_spec (s : CState) :
    (isOkToMark s).1 = (s.markNext && s.overTargetForInterval)
      ∧ (isOkToMark s).2 = { s with markNext := false } := by
  obtain ⟨pk, b, mc, fat, nmt, st, dol, tdp, tdb, so, sb, pr, cw, ot, mn⟩ := s
  cases mn <;> cases ot <;> exact ⟨rfl, rfl⟩

/-- C5: `enqueue(packet)` returns false exactly when, under
packet-count mode, admitting would exceed `maxPackets`, or, under
byte-count mode, admitting would exceed `maxBytes`; on rejection the
state change is exactly `droppedOverLimit`, `totalDropped` and
`totalDroppedBytes` incrementing (queue and `bytesInQueue` untouched);
on acceptance the state change is exactly the time-stamped packet
appended and `bytesInQueue` grown by its size. -/
theorem doEnqueue_spec (cfg : Config) (s : CState) (size nowNs : ℕ) :
    ((doEnqueue cfg s size nowNs).1 = false ↔
        ((cfg.mode = QueueMode.packets ∧ cfg.maxPackets < s.packets.length + 1)
          ∨ (cfg.mode = QueueMode.bytes ∧ cfg.maxBytes < s.bytesInQueue + size)))
      ∧ (doEnqueue cfg s size nowNs).2 =
          (if (cfg.mode = QueueMode.packets ∧ cfg.maxPackets < s.packets.length + 1)
              ∨ (cfg.mode = QueueMode.bytes ∧ cfg.maxBytes < s.bytesInQueue + size) then
            { s with
              dropOverLimit := s.dropOverLimit + 1
              nTotalDroppedPackets := s.nTotalDroppedPackets + 1
              nTotalDroppedBytes := s.nTotalDroppedBytes + size }
          else
            { s with
              bytesInQueue := s.bytesInQueue + size
              packets := s.packets ++ [⟨size, nowNs⟩] }) := by
  by_cases h1 : cfg.mode = QueueMode.packets ∧ cfg.maxPackets < s.packets.length + 1
  · unfold doEnqueue drop queueDropBase
    rw [if_pos (Or.inl h1), if_pos h1]
    exact ⟨iff_of_true rfl (Or.inl h1), rfl⟩
  · by_cases h2 : cfg.mode = QueueMode.bytes ∧ cfg.maxBytes < s.bytesInQueue + size
    · unfold doEnqueue drop queueDropBase
      rw [if_pos (Or.inr h2), if_neg h1, if_pos h2]
      exact ⟨iff_of_true rfl (Or.inr h2), rfl⟩
    · have hd : ¬((cfg.mode = QueueMode.packets ∧ cfg.maxPackets < s.packets.length + 1)
          ∨ (cfg.mode = QueueMode.bytes ∧ cfg.maxBytes < s.bytesInQueue + size)) :=
        fun hc => hc.elim h1 h2
      unfold doEnqueue drop queueDropBase
      rw [if_neg h1, if_neg h2, if_neg hd]
      exact ⟨iff_of_false (by simp) hd, rfl⟩

/-- C8: `dequeue()` on an empty queue returns the empty signal, resets
`firstAboveTime` to 0 and clears the confirmed-over-target state, and
leaves `markedCount` and every other controller-state field
(`nextMarkingTime`, `markNext`, `probability`, `previousSojourn`, the
counters) unchanged. -/
theorem doDequeue_empty_spec (cfg : Config) (s : CState) (nowNs : ℕ)
    (h : s.packets = []) :
    (doDequeue cfg s nowNs).1 = none
      ∧ (doDequeue cfg s nowNs).2
          = { s with overTargetForInterval := false, firstAboveTime := 0 }
      ∧ (doDequeue cfg s nowNs).2.overTargetForInterval = false
      ∧ (doDequeue cfg s nowNs).2.firstAboveTime = 0
      ∧ (doDequeue cfg s nowNs).2.markedCount = s.markedCount
      ∧ (doDequeue cfg s nowNs).2.nextMarkingTime = s.nextMarkingTime
      ∧ (doDequeue cfg s nowNs).2.markNext = s.markNext
      ∧ (doDequeue cfg s nowNs).2.probability = s.probability
      ∧ (doDequeue cfg s nowNs).2.sojournTime_before = s.sojournTime_before
      ∧ (doDequeue cfg s nowNs).2.dropOverLimit = s.dropOverLimit
      ∧ (doDequeue cfg s nowNs).2.nTotalDroppedPackets = s.nTotalDroppedPackets
      ∧ (doDequeue cfg s nowNs).2.nTotalDroppedBytes = s.nTotalDroppedBytes
      ∧ (doDequeue cfg s nowNs).2.states = s.states := by
  unfold doDequeue
  rw [h]
  exact ⟨rfl, rfl, rfl, rfl, rfl, rfl, rfl, rfl, rfl, rfl, rfl, rfl, rfl⟩

/-- C8 (witness): the empty-queue dequeue at the constructor state. -/
theorem doDequeue_empty_spec_witness :
    (doDequeue cfgW initState 5).1 = none
      ∧ (doDequeue cfgW initState 5).2.markedCount = initState.markedCount :=
  ⟨(doDequeue_empty_spec cfgW initState 5 rfl).1,
    (doDequeue_empty_spec cfgW initState 5 rfl).2.2.2.2.1⟩

/-- C9: `peek()` returns the head packet (or the empty signal on an
empty queue), repeated calls without an intervening dequeue return the
same packet, and no state is mutated — in particular `bytesInQueue` is
unchanged. -/
theorem doPeek_spec (s : CState) :
    (doPeek s).2 = s
      ∧ (doPeek s).1 = s.packets.head?
      ∧ (doPeek (doPeek s).2).1 = (doPeek s).1
      ∧ (doPeek s).2.bytesInQueue = s.bytesInQueue := by
  rcases hq : s.packets with - | ⟨p, rest⟩ <;> simp [doPeek, hq]

/-- C10: `isQueueOverLimit(fraction)` returns true iff
`bytesInQueue > maxBytes * fraction` or the packet count exceeds
`maxPackets * fraction`; both limits are tested regardless of the
configured queue mode. -/
theorem isQueueOverLimit_spec (cfg : Config) (s : CState) (limit : ℚ)
    (_h0 : 0 ≤ limit) (_h1 : limit ≤ 1) :
    (isQueueOverLimit cfg s limit = true ↔
        ((cfg.maxBytes : ℚ) * limit < (s.bytesInQueue : ℚ)
          ∨ (cfg.maxPackets : ℚ) * limit < (s.packets.length : ℚ)))
      ∧ (∀ m : QueueMode,
          isQueueOverLimit { cfg with mode := m } s limit
            = isQueueOverLimit cfg s limit) := by
  constructor
  · unfold isQueueOverLimit
    split_ifs with h
    · simp only [true_iff]
      exact h
    · simp only [false_iff]
      exact h
  · intro m
    rfl

/-- C10 (witness): fraction 1 on a state over the byte limit. -/
theorem isQueueOverLimit_spec_witness :
    isQueueOverLimit cfgW { initState with bytesInQueue := 150001 } 1 = true :=
  ((isQueueOverLimit_spec cfgW { initState with bytesInQueue := 150001 } 1
      zero_le_one le_rfl).1).mpr
    (Or.inl (by rw [mul_one]; exact Nat.cast_lt.mpr (by decide)))

/-- C2 (counterexample): with target 5 and interval 100 coarse units,
`firstAboveTime = 10`, sojourn 8 coarse units (above target) and
`now = 110 = firstAboveTime + interval` — the inclusive boundary the
claim asserts fires — the tracker performs no confirmed-over-target
update: the comparison in the source is strict. -/
theorem sojourn_tracker_boundary_counterexample :
    coDelTimeAfter (time2CoDel 8192) (time2CoDel cfgW.targetNs) = true
      ∧ sFat.firstAboveTime ≠ 0
      ∧ (110 : ℕ) = sFat.firstAboveTime + time2CoDel cfgW.intervalNs
      ∧ (checkSojournTime cfgW sFat 8192 110).1 = false
      ∧ (checkSojournTime cfgW sFat 8192 110).2.overTargetForInterval = false
      ∧ (checkSojournTime cfgW sFat 8192 110).2.sojournTime_before = sFat.sojournTime_before
      ∧ (checkSojournTime cfgW sFat 8192 110).2.probability = sFat.probability := by
  refine ⟨by decide, by decide, by decide, by decide, by decide, by decide, by decide⟩

/-- C2 (amended): for a dequeue whose sojourn delay exceeds target with
`firstAboveTime` already set, if `now` is strictly after
`firstAboveTime + interval` (at equality nothing happens) the tracker
confirms over-target, records `sojourn = d`, recomputes `probability`
and the congestion window and sets `previousSojourn = d` in seconds;
otherwise it performs none of those updates and reports not
confirmed. -/
theorem sojourn_tracker_confirm_spec (cfg : Config) (s : CState) (deltaNs now : ℕ)
    (h1 : coDelTimeAfter (time2CoDel deltaNs) (time2CoDel cfg.targetNs) = true)
    (h2 : s.firstAboveTime ≠ 0) :
    (coDelTimeAfter now (s.firstAboveTime + time2CoDel cfg.intervalNs) = true →
        checkSojournTime cfg s deltaNs now =
          (true,
            { s with
              overTargetForInterval := true
              sojourn := deltaNs
              probability := clampProbability (s.probability
                + (1 / 8) * (getSeconds deltaNs - getSeconds cfg.targetNs)
                + (5 / 4) * (getSeconds deltaNs - s.sojournTime_before))
              Cwnd := ((1 / 8) * (getSeconds cfg.targetNs - getSeconds deltaNs)
                  - clampProbability (s.probability
                    + (1 / 8) * (getSeconds deltaNs - getSeconds cfg.targetNs)
                    + (5 / 4) * (getSeconds deltaNs - s.sojournTime_before)))
                / ((11 / 8) * getSeconds deltaNs)
              sojournTime_before := getSeconds deltaNs }))
      ∧ (coDelTimeAfter now (s.firstAboveTime + time2CoDel cfg.intervalNs) = false →
          checkSojournTime cfg s deltaNs now =
            (false, { s with overTargetForInterval := false })) :=
  ⟨fun h3 => checkSojournTime_confirm_eq cfg s deltaNs now h1 h2 h3,
    fun h3 => checkSojournTime_pending_eq cfg s deltaNs now h1 h2 h3⟩

/-- C2 (witness): the strict-after case at concrete inputs. -/
theorem sojourn_tracker_confirm_spec_witness :
    checkSojournTime cfgW sFat 8192 111 =
      (true,
        { sFat with
          overTargetForInterval := true
          sojourn := 8192
          probability := clampProbability (sFat.probability
            + (1 / 8) * (getSeconds 8192 - getSeconds cfgW.targetNs)
            + (5 / 4) * (getSeconds 8192 - sFat.sojournTime_before))
          Cwnd := ((1 / 8) * (getSeconds cfgW.targetNs - getSeconds 8192)
              - clampProbability (sFat.probability
                + (1 / 8) * (getSeconds 8192 - getSeconds cfgW.targetNs)
                + (5 / 4) * (getSeconds 8192 - sFat.sojournTime_before)))
            / ((11 / 8) * getSeconds 8192)
          sojournTime_before := getSeconds 8192 }) :=
  (sojourn_tracker_confirm_spec cfgW sFat 8192 111 (by decide) (by decide)).1 (by decide)

/-- C3: on a dequeue that confirms the over-target condition,
`probability` is incremented by `0.125 (d − T) + 1.25 (d − p)` and then
clamped into [0, 1], `congestionWindow` becomes
`(0.125 (T − d) − probability) / (1.375 d)` with the clamped
probability, and — for any sequence of operations from the initial
state — `probability` always stays within [0, 1]. -/
theorem probability_window_update_spec (cfg : Config) (s : CState) (deltaNs now : ℕ)
    (h1 : coDelTimeAfter (time2CoDel deltaNs) (time2CoDel cfg.targetNs) = true)
    (h2 : s.firstAboveTime ≠ 0)
    (h3 : coDelTimeAfter now (s.firstAboveTime + time2CoDel cfg.intervalNs) = true) :
    ((checkSojournTime cfg s deltaNs now).2.probability
        = min 1 (max 0 (s.probability
            + (1 / 8) * (getSeconds deltaNs - getSeconds cfg.targetNs)
            + (5 / 4) * (getSeconds deltaNs - s.sojournTime_before))))
      ∧ (0 ≤ (checkSojournTime cfg s deltaNs now).2.probability
          ∧ (checkSojournTime cfg s deltaNs now).2.probability ≤ 1)
      ∧ (checkSojournTime cfg s deltaNs now).2.Cwnd
          = ((1 / 8) * (getSeconds cfg.targetNs - getSeconds deltaNs)
              - (checkSojournTime cfg s deltaNs now).2.probability)
            / ((11 / 8) * getSeconds deltaNs)
      ∧ (∀ (cfg' : Config) (ops : List Op),
          0 ≤ (run cfg' ops).probability ∧ (run cfg' ops).probability ≤ 1) := by
  rw [checkSojournTime_confirm_eq cfg s deltaNs now h1 h2 h3]
  exact ⟨clampProbability_eq_min_max _, ⟨clampProbability_nonneg _, clampProbability_le_one _⟩,
    rfl, run_probability_unit⟩

/-- C3 (witness): a concrete confirming dequeue keeps probability in
[0, 1]. -/
theorem probability_window_update_spec_witness :
    0 ≤ (checkSojournTime cfgW sFat 8192 111).2.probability
      ∧ (checkSojournTime cfgW sFat 8192 111).2.probability ≤ 1 :=
  (probability_window_update_spec cfgW sFat 8192 111 (by decide) (by decide) (by decide)).2.1

/-- C4: on a dequeue of a non-empty queue where the sojourn tracker
reports confirmed-over-target and `now >= nextMarkingTime`, the
scheduler increments `markedCount`, sets `markNext`, and reschedules
`nextMarkingTime = now + interval_coarse * (1.1 / sqrt markedCount)`
(with the incremented count; stated both via the executable
`markingDelay` and via the real-valued formula); when the tracker
reports not-confirmed, `markedCount` resets to 0. -/
theorem marking_scheduler_spec (cfg : Config) (s : CState) (nowNs : ℕ) (p : Packet)
    (rest : List Packet) (h : s.packets = p :: rest) :
    ((checkSojournTime cfg { s with packets := rest, bytesInQueue := s.bytesInQueue - p.size }
          (nowNs - p.stamp) (coDelGetTime nowNs)).1 = true →
        coDelTimeAfterEq (coDelGetTime nowNs) s.nextMarkingTime = true →
          (doDequeue cfg s nowNs).2.markedCount = s.markedCount + 1
            ∧ (doDequeue cfg s nowNs).2.markNext = true
            ∧ (doDequeue cfg s nowNs).2.nextMarkingTime
                = coDelGetTime nowNs + markingDelay (time2CoDel cfg.intervalNs) (s.markedCount + 1)
            ∧ (doDequeue cfg s nowNs).2.nextMarkingTime
                = coDelGetTime nowNs
                  + ⌊(time2CoDel cfg.intervalNs : ℝ) * (11 / 10)
                      / Real.sqrt ((s.markedCount : ℝ) + 1)⌋₊)
      ∧ ((checkSojournTime cfg { s with packets := rest, bytesInQueue := s.bytesInQueue - p.size }
            (nowNs - p.stamp) (coDelGetTime nowNs)).1 = false →
          (doDequeue cfg s nowNs).2.markedCount = 0) := by
  obtain ⟨-, -, hmc, hnmt, -, -, -, -, -⟩ :=
    checkSojournTime_frame cfg
      { s with packets := rest, bytesInQueue := s.bytesInQueue - p.size }
      (nowNs - p.stamp) (coDelGetTime nowNs)
  constructor
  · intro hok ht
    have hfloor : markingDelay (time2CoDel cfg.intervalNs) (s.markedCount + 1)
        = ⌊(time2CoDel cfg.intervalNs : ℝ) * (11 / 10) / Real.sqrt ((s.markedCount : ℝ) + 1)⌋₊ := by
      have hcast : ((s.markedCount + 1 : ℕ) : ℝ) = (s.markedCount : ℝ) + 1 := by push_cast; ring
      rw [markingDelay_eq_floor _ _ (Nat.succ_pos s.markedCount), hcast]
    have hstate : (doDequeue cfg s nowNs).2 =
        { (checkSojournTime cfg
              { s with packets := rest, bytesInQueue := s.bytesInQueue - p.size }
              (nowNs - p.stamp) (coDelGetTime nowNs)).2 with
          markedCount := (checkSojournTime cfg
              { s with packets := rest, bytesInQueue := s.bytesInQueue - p.size }
              (nowNs - p.stamp) (coDelGetTime nowNs)).2.markedCount + 1
          markNext := true
          nextMarkingTime := getNextMarkingTime cfg
            ((checkSojournTime cfg
                { s with packets := rest, bytesInQueue := s.bytesInQueue - p.size }
                (nowNs - p.stamp) (coDelGetTime nowNs)).2.markedCount + 1) (coDelGetTime nowNs)
          states := (checkSojournTime cfg
              { s with packets := rest, bytesInQueue := s.bytesInQueue - p.size }
              (nowNs - p.stamp) (coDelGetTime nowNs)).2.states + 1 } := by
      simp only [doDequeue, h, hok, hnmt, ht, if_true]
    rw [hstate]
    refine ⟨by rw [hmc], rfl, by rw [hmc]; rfl, ?_⟩
    show getNextMarkingTime cfg _ _ = _
    rw [hmc, getNextMarkingTime, hfloor]
  · intro hok
    simp only [doDequeue, h, hok, Bool.false_eq_true, if_false]

/-- C4 (witness): a concrete confirming dequeue fires a mark. -/
theorem marking_scheduler_spec_witness :
    (doDequeue cfgW sMarkW 117760).2.markedCount = sMarkW.markedCount + 1
      ∧ (doDequeue cfgW sMarkW 117760).2.markNext = true := by
  have hX := (marking_scheduler_spec cfgW sMarkW 117760 ⟨100, 0⟩ [] rfl).1
    (by decide) (by decide)
  exact ⟨hX.1, hX.2.1⟩

/-- C6: after any sequence of enqueues and dequeues from the initial
state, `bytesInQueue` is nonnegative and equals the sum of the sizes of
the packets currently in the queue. -/
theorem bytesInQueue_invariant (cfg : Config) (ops : List Op) :
    0 ≤ (run cfg ops).bytesInQueue
      ∧ (run cfg ops).bytesInQueue = ((run cfg ops).packets.map Packet.size).sum :=
  ⟨Nat.zero_le _, run_bytes_sum cfg ops⟩

/-- C7: after any sequence of enqueues and dequeues from the initial
state, `queueSize()` never exceeds the configured limit of the active
mode: `maxPackets` in packet-count mode, `maxBytes` in byte-count
mode. -/
theorem queueSize_within_limit (cfg : Config) (ops : List Op) :
    getQueueSize cfg (run cfg ops) ≤
      (match cfg.mode with
        | QueueMode.packets => cfg.maxPackets
        | QueueMode.bytes => cfg.maxBytes) := by
  have hl := run_queueSize_le cfg ops
  cases hm : cfg.mode <;> simpa [modeLimit, hm] using hl

end CoDelQueue2
